import Mathlib

/-!
A verification development for the mf2py microformats2 parser
(`mf2py/parser.py`).  The DOM walker of `Parser.parse` — the nested
functions `handle_microformat`, `parse_props`, `parse_rels`, `parse_el` —
is embedded below as total functions over an explicit DOM element type,
with the shared mutable `self._default_date` slot threaded explicitly as a
state value.  Collaborator modules that are consumed by `parser.py` but are
outside it (`mf2_classes`, `parse_property`, `implied_properties`,
`dom_helpers.get_attr`, URL joining) are modelled from the specification,
as marked in their doc comments.
-/

namespace Mf2

/-! ## String helpers

Kernel-computable replacements for the string operations the source uses
(`startswith`, slicing, `strip`, membership, `join`, substring search),
implemented over the character list of a `String`. -/

def strStarts (s p : String) : Bool := p.data.isPrefixOf s.data

def strDrop (s : String) (n : Nat) : String := ⟨s.data.drop n⟩

def isWS (c : Char) : Bool := c = ' ' || c = '\t' || c = '\n' || c = '\r'

def strTrim (s : String) : String :=
  ⟨((s.data.dropWhile isWS).reverse.dropWhile isWS).reverse⟩

def strContainsChar (s : String) (c : Char) : Bool := s.data.contains c

def listHasInfix (sub : List Char) : List Char → Bool
  | [] => sub.isEmpty
  | c :: rest => sub.isPrefixOf (c :: rest) || listHasInfix sub rest

def strHasSub (s sub : String) : Bool := listHasInfix sub.data s.data

def strTakeUntilSpace (s : String) : String := ⟨s.data.takeWhile (fun c => c ≠ ' ')⟩

def joinSpace : List String → String
  | [] => ""
  | h :: t => t.foldl (fun a s => a ++ " " ++ s) h

/-! ## The DOM

The external DOM collaborator interface (spec §6): an element has a tag
name, an ordered multi-valued class list, a multi-valued `rel` attribute
(absent or a token list, as BeautifulSoup reports it), an ordered
single-valued attribute map, a rendered text-content accessor, an
inner-markup serialization, and ordered direct child elements.  Children
are a mutually defined list so that the parser can recurse structurally. -/

mutual
inductive Element where
  | mk (tag : String) (classes : List String) (relAttr : Option (List String))
      (attrs : List (String × String)) (text innerHtml : String)
      (children : ElementList)
inductive ElementList where
  | nil
  | cons (head : Element) (tail : ElementList)
end

def Element.tag : Element → String
  | .mk t _ _ _ _ _ _ => t

def Element.classes : Element → List String
  | .mk _ c _ _ _ _ _ => c

def Element.relAttr : Element → Option (List String)
  | .mk _ _ r _ _ _ _ => r

def Element.attrs : Element → List (String × String)
  | .mk _ _ _ a _ _ _ => a

def Element.text : Element → String
  | .mk _ _ _ _ tx _ _ => tx

def Element.innerHtml : Element → String
  | .mk _ _ _ _ _ ih _ => ih

def Element.children : Element → ElementList
  | .mk _ _ _ _ _ _ ch => ch

def ElementList.toList : ElementList → List Element
  | .nil => []
  | .cons h t => h :: t.toList

def toEL : List Element → ElementList
  | [] => .nil
  | h :: t => .cons h (toEL t)

/-- Modelled from the spec: `dom_helpers.get_attr` (not under `src/`) — attribute
lookup by name on an element, `None` when absent. -/
def getAttr (el : Element) (k : String) : Option String :=
  match el.attrs.find? (fun p => p.1 == k) with
  | some p => some p.2
  | none => none

/-! ## Classname classifier -/

/-- Modelled from the spec: `mf2_classes.root` (not under `src/`, spec §4.1 and
glossary) — the class tokens matching the record-root pattern, i.e. tokens with
the "h-" prefix.  (The backward-compatibility expansion is applied to the
document by `backcompat.apply_rules` before parsing starts, so the DOM handed
to the walker already carries current classnames.) -/
def mf2Root (classes : List String) : List String :=
  classes.filter (fun c => strStarts c "h-")

/-- Modelled from the spec: the shared shape of the four category classifiers
(§4.1) — tokens carrying the category prefix, with the prefix stripped to give
the property name. -/
def propNamesFor (p : String) (classes : List String) : List String :=
  classes.filterMap (fun c => if strStarts c p then some (strDrop c p.data.length) else none)

/-- Modelled from the spec: `mf2_classes.text` — plaintext "p-" property names. -/
def mf2Text (classes : List String) : List String := propNamesFor "p-" classes

/-- Modelled from the spec: `mf2_classes.url` — URL "u-" property names. -/
def mf2Url (classes : List String) : List String := propNamesFor "u-" classes

/-- Modelled from the spec: `mf2_classes.datetime` — datetime "dt-" property names. -/
def mf2Datetime (classes : List String) : List String := propNamesFor "dt-" classes

/-- Modelled from the spec: `mf2_classes.embedded` — embedded-markup "e-" property
names. -/
def mf2Embedded (classes : List String) : List String := propNamesFor "e-" classes

/-- Does the element declare at least one property name in any category
(`is_property_el`, parser.py lines 166-234)? -/
def hasPropClasses (classes : List String) : Bool :=
  !((mf2Text classes).isEmpty && (mf2Url classes).isEmpty &&
    (mf2Datetime classes).isEmpty && (mf2Embedded classes).isEmpty)

/-- Modelled from the spec: base URL resolution (§6), with `urljoin`'s observable
behaviour on the inputs the source feeds it: an absent or empty base returns the
relative URL unchanged (this is why a missing base URL never raises), an empty
relative URL returns the base, an already absolute URL is kept, and otherwise
the URL is resolved against the base. -/
def urljoin (base : Option String) (url : String) : String :=
  match base with
  | none => url
  | some b =>
    if b = "" then url
    else if url = "" then b
    else if strHasSub url "://" then url
    else b ++ url

/-! ## Records and property values -/

mutual
inductive PropertyValue where
  | str (s : String)
  | emb (html value : String)
  | record (r : Record)
inductive Record where
  | mk (type : List String) (properties : List (String × List PropertyValue))
      (children : List Record) (value : Option PropertyValue)
      (shape coords : Option String)
end

def Record.type : Record → List String
  | .mk t _ _ _ _ _ => t

def Record.properties : Record → List (String × List PropertyValue)
  | .mk _ p _ _ _ _ => p

def Record.children : Record → List Record
  | .mk _ _ c _ _ _ => c

def Record.value : Record → Option PropertyValue
  | .mk _ _ _ v _ _ => v

def Record.shape : Record → Option String
  | .mk _ _ _ _ s _ => s

def Record.coords : Record → Option String
  | .mk _ _ _ _ _ c => c

abbrev Props := List (String × List PropertyValue)

/-! ## Value extractors (external collaborators, modelled from the spec) -/

/-- Modelled from the spec: `parse_property.text` (§4.2) — the element's rendered
text content (the caller strips whitespace, parser.py line 176). -/
def parsePropText (el : Element) : String := el.text

/-- Modelled from the spec: `parse_property.url` (§4.2) — a well-known URL-bearing
attribute chosen by tag, resolved against the current base URL. -/
def parsePropUrl (el : Element) (base : Option String) : String :=
  let raw :=
    match el.tag with
    | "img" => (getAttr el "src").getD ""
    | "audio" => (getAttr el "src").getD ""
    | "video" => (getAttr el "src").getD ""
    | _ => (getAttr el "href").getD ((getAttr el "src").getD "")
  urljoin base raw

/-- Modelled from the spec: `parse_property.datetime` (§4.2) — parses a normalized
date/time token taken from the `datetime` attribute or the text content.  A token
with a space is a full date plus time (the date component is the part before the
space); a token containing "-" is a full date; anything else is a time-only token,
which is combined with the carried default date when one is available.  The second
component signals a new full date exactly when the element supplied one itself. -/
def parsePropDatetime (el : Element) (defaultDate : Option String) :
    String × Option String :=
  let raw := strTrim ((getAttr el "datetime").getD el.text)
  if strContainsChar raw ' ' then (raw, some (strTakeUntilSpace raw))
  else if strContainsChar raw '-' then (raw, some raw)
  else
    match defaultDate with
    | some d => (d ++ " " ++ raw, none)
    | none => (raw, none)

/-- Modelled from the spec: `parse_property.embedded` (§4.2) — the dual
`{value, html}` representation: literal inner markup plus a plaintext rendering,
one value object for merge purposes. -/
def parsePropEmbedded (el : Element) : PropertyValue :=
  .emb el.innerHtml el.text

/-! ## Implied properties (external collaborator, modelled from the spec) -/

/-- Modelled from the spec: `implied_properties.name` (§4.3) — an `alt` or `title`
attribute, an alt-bearing single image child, else the element's trimmed text
content; always yields exactly one value. -/
def impliedName (el : Element) : List PropertyValue :=
  match getAttr el "alt" with
  | some a => [.str a]
  | none =>
    match getAttr el "title" with
    | some t => [.str t]
    | none =>
      match (el.children.toList.filter (fun c => c.tag == "img")) with
      | [c] =>
        match getAttr c "alt" with
        | some a => [.str a]
        | none => [.str (strTrim el.text)]
      | _ => [.str (strTrim el.text)]

/-- Modelled from the spec: `implied_properties.photo` (§4.3) — a photo-bearing
attribute on the element itself or on a single qualifying `img` child, resolved
against the base URL; absent otherwise. -/
def impliedPhoto (el : Element) (base : Option String) : Option (List PropertyValue) :=
  if el.tag == "img" then
    (getAttr el "src").map (fun s => [PropertyValue.str (urljoin base s)])
  else
    match (el.children.toList.filter (fun c => c.tag == "img")) with
    | [c] => (getAttr c "src").map (fun s => [PropertyValue.str (urljoin base s)])
    | _ => none

/-- Modelled from the spec: `implied_properties.url` (§4.3) — an href-bearing
attribute on the element itself or on a single qualifying anchor child, resolved
against the base URL; absent otherwise. -/
def impliedUrl (el : Element) (base : Option String) : Option (List PropertyValue) :=
  if el.tag == "a" then
    (getAttr el "href").map (fun h => [PropertyValue.str (urljoin base h)])
  else
    match (el.children.toList.filter (fun c => c.tag == "a")) with
    | [c] => (getAttr c "href").map (fun h => [PropertyValue.str (urljoin base h)])
    | _ => none

/-! ## Ordered association maps

Python dicts preserve key insertion order; property value lists only grow by
appending.  `alistSet` is dict assignment (update in place, or append a new key
at the end), `alistAppend`/`alistExtend` are `setdefault` + `append`/`extend`. -/

def alistGet {α : Type} : List (String × List α) → String → List α
  | [], _ => []
  | p :: rest, k => if p.1 == k then p.2 else alistGet rest k

def alistHas {α : Type} : List (String × List α) → String → Bool
  | [], _ => false
  | p :: rest, k => p.1 == k || alistHas rest k

def alistSet {α : Type} : List (String × List α) → String → List α → List (String × List α)
  | [], k, v => [(k, v)]
  | p :: rest, k, v => if p.1 == k then (k, v) :: rest else p :: alistSet rest k v

def alistAppend {α : Type} (m : List (String × List α)) (k : String) (x : α) :
    List (String × List α) :=
  alistSet m k (alistGet m k ++ [x])

def alistExtend {α : Type} (m : List (String × List α)) (k : String) (xs : List α) :
    List (String × List α) :=
  alistSet m k (alistGet m k ++ xs)

/-- Append one value under each key of `keys`, in order (the per-property-name
append loops of `parse_props`, and the per-rel-token loop of `parse_rels`). -/
def appendAll {α : Type} (keys : List String) (x : α) (m : List (String × List α)) :
    List (String × List α) :=
  keys.foldl (fun acc k => alistAppend acc k x) m

/-- Merge a child's returned properties into the accumulator, key by key in the
child's key order, appending new values after existing ones (parser.py lines
115-118 and 245-248). -/
def mergeProps (acc new : Props) : Props :=
  new.foldl (fun a p => alistExtend a p.1 p.2) acc

/-! ## The record builder / tree walker -/

/-- One implied-property step of `handle_microformat` (parser.py lines 122-133):
if the key is not already present, assign the implied value when there is one.
(The implied name always exists, so its step passes `some`.) -/
def setIfAbsent (m : Props) (k : String) (impl : Option (List PropertyValue)) : Props :=
  if alistHas m k then m
  else
    match impl with
    | some x => alistSet m k x
    | none => m

/-- The record-assembly part of `handle_microformat` (parser.py lines 108,
121-154), applied to the result of scanning the element's direct children:
implied name / photo / url when the explicit key is absent, `area` extras,
`children` kept only if non-empty (the empty list denotes the omitted key),
`value` only when a simple value was supplied. -/
def buildMf (rootClassNames : List String) (el : Element) (simpleValue : Option PropertyValue)
    (base : Option String) (scanned : Props × List Record × Option String) : Record :=
  let properties := scanned.1
  let children := scanned.2.1
  let properties := setIfAbsent properties "name" (some (impliedName el))
  let properties := setIfAbsent properties "photo" (impliedPhoto el base)
  let properties := setIfAbsent properties "url" (impliedUrl el base)
  let shape := if el.tag == "area" then getAttr el "shape" else none
  let coords := if el.tag == "area" then getAttr el "coords" else none
  Record.mk rootClassNames properties children simpleValue shape coords

/-- The plaintext category value of an element (parser.py lines 169-182): the
stripped text, wrapped as a nested record with that simple value when the element
also carries root classnames. -/
def pVal (base : Option String) (el : Element)
    (scanned : Props × List Record × Option String) : PropertyValue :=
  let v := strTrim (parsePropText el)
  if (mf2Root el.classes).isEmpty then .str v
  else .record (buildMf (mf2Root el.classes) el (some (.str v)) base scanned)

/-- The URL category value of an element (parser.py lines 185-198). -/
def uVal (base : Option String) (el : Element)
    (scanned : Props × List Record × Option String) : PropertyValue :=
  let v := parsePropUrl el base
  if (mf2Root el.classes).isEmpty then .str v
  else .record (buildMf (mf2Root el.classes) el (some (.str v)) base scanned)

/-- The datetime category value of an element (parser.py lines 201-218), computed
from the default date in effect when the dt-* loop first runs. -/
def dVal (base : Option String) (el : Element)
    (scanned : Props × List Record × Option String) (d : Option String) : PropertyValue :=
  let v := (parsePropDatetime el d).1
  if (mf2Root el.classes).isEmpty then .str v
  else .record (buildMf (mf2Root el.classes) el (some (.str v)) base scanned)

/-- The default date after the dt-* extraction: updated exactly when the element
supplied a new full date (parser.py lines 208-212). -/
def dtNewDate (el : Element) (d : Option String) : Option String :=
  let nd := (parsePropDatetime el d).2
  if nd.isSome then nd else d

/-- The embedded category value of an element (parser.py lines 221-234). -/
def eVal (base : Option String) (el : Element)
    (scanned : Props × List Record × Option String) : PropertyValue :=
  let v := parsePropEmbedded el
  if (mf2Root el.classes).isEmpty then v
  else .record (buildMf (mf2Root el.classes) el (some v) base scanned)

/-- The default date in effect when the dt-* loop of `parse_props` first runs on
an element: the incoming date, unless the element has root classnames and an
earlier (p-* or u-*) loop already called `handle_microformat`, which left the
shared slot at the final date of the element's own child scan. -/
def dtPhaseDate (_base : Option String) (el : Element)
    (scanned : Props × List Record × Option String) (d0 : Option String) :
    Option String :=
  let rcn := mf2Root el.classes
  let dHm := scanned.2.2
  let d1 := if (mf2Text el.classes).isEmpty || rcn.isEmpty then d0 else dHm
  if (mf2Url el.classes).isEmpty || rcn.isEmpty then d1 else dHm

/-- The four per-category loops of `parse_props` (parser.py lines 168-234) on one
element: each category's value is parsed lazily once and appended under every
declared name of that category.  The default date is threaded exactly as the
shared `self._default_date` is mutated: computing a dt-* value may update it,
and every `handle_microformat` call made to wrap a value (when the element has
root classnames) leaves it at the final date of that element's own child scan
(`scanned.2.2`), since `handle_microformat` resets it and never restores it. -/
def elementPhases (base : Option String) (el : Element)
    (scanned : Props × List Record × Option String) (d0 : Option String) :
    Props × Option String :=
  let classes := el.classes
  let rcn := mf2Root classes
  let dHm := scanned.2.2
  let textNames := mf2Text classes
  let urlNames := mf2Url classes
  let dtNames := mf2Datetime classes
  let eNames := mf2Embedded classes
  let props := appendAll textNames (pVal base el scanned) []
  let props := appendAll urlNames (uVal base el scanned) props
  let d2 := dtPhaseDate base el scanned d0
  let props := appendAll dtNames (dVal base el scanned d2) props
  let d3 :=
    if dtNames.isEmpty then d2
    else if rcn.isEmpty then dtNewDate el d2
    else dHm
  let props := appendAll eNames (eVal base el scanned) props
  let d4 := if eNames.isEmpty || rcn.isEmpty then d3 else dHm
  (props, d4)

mutual
/-- The direct-child merge loop shared by `handle_microformat` (parser.py lines
113-119) and the no-root recursion of `parse_props` (lines 242-249): scan each
child in document order, merge returned properties by key and concatenate
returned child records, threading the default date through. -/
def scanChildren (base : Option String) :
    ElementList → Props → List Record → Option String →
      Props × List Record × Option String
  | .nil, props, children, d => (props, children, d)
  | .cons child rest, props, children, d =>
    let r := parse_props base child d
    scanChildren base rest (mergeProps props r.1) (children ++ r.2.1) r.2.2
  termination_by structural els => els

/-- `parse_props` (parser.py lines 156-251).  Every `handle_microformat` call made
for this element performs the same pure scan of its direct children starting from
a freshly reset default date (line 110), so that scan is taken once as `scanned`.
A non-property element with root classnames becomes one bare child microformat
(lines 238-239); recursion into child tags happens only when the element has no
root classnames (lines 242-249). -/
def parse_props (base : Option String) :
    Element → Option String → Props × List Record × Option String
  | el@(.mk _ classes _ _ _ _ childEls), d0 =>
    let rcn := mf2Root classes
    let scanned := scanChildren base childEls [] [] none
    let ph := elementPhases base el scanned d0
    let bare :=
      if !(hasPropClasses classes) && !rcn.isEmpty then
        ([buildMf rcn el none base scanned], scanned.2.2)
      else ([], ph.2)
    if rcn.isEmpty then scanChildren base childEls ph.1 bare.1 bare.2
    else (ph.1, bare.1, bare.2)
  termination_by structural el => el
end

/-- `handle_microformat` (parser.py lines 105-154): build the record for an
element carrying root classnames.  It resets the shared default date (line 110),
scans the element's direct children, and returns the assembled record together
with the default date it leaves behind — the final date of its own child scan,
not the caller's previous date. -/
def handle_microformat (base : Option String) (rootClassNames : List String)
    (el : Element) (simpleValue : Option PropertyValue) : Record × Option String :=
  let scanned := scanChildren base el.children [] [] none
  (buildMf rootClassNames el simpleValue base scanned, scanned.2.2)

mutual
/-- `parse_el` (parser.py lines 293-320): find potential microformats by root
classnames; a root element yields one record and stops the descent, otherwise
the children are searched.  (The bs4+html5lib multi-valued-class workaround is a
no-op here because classes are always a token list.) -/
def parse_el (base : Option String) : Element → List Record
  | el@(.mk _ classes _ _ _ _ childEls) =>
    let potential := mf2Root classes
    if potential.isEmpty then parse_el_list base childEls
    else [(handle_microformat base potential el none).1]
  termination_by structural el => el

/-- The child loop of `parse_el` (parser.py lines 313-315). -/
def parse_el_list (base : Option String) : ElementList → List Record
  | .nil => []
  | .cons h t => parse_el base h ++ parse_el_list base t
  termination_by structural els => els
end

/-! ## Rel / alternate collector -/

structure Alternate where
  url : String
  rel : Option String
  media : Option String
  hreflang : Option String
  type : Option String
deriving DecidableEq, Repr

/-- The rel map and alternates accumulated in `self.__parsed__`; the alternates
key is created only when the first entry is appended (parser.py lines 270, 291). -/
structure RelsAcc where
  rels : List (String × List String)
  alternates : Option (List Alternate)
deriving DecidableEq, Repr

/-- The alternate entry built for a rel element whose tokens contain "alternate"
(parser.py lines 270-290).  `" ".join` over the non-"alternate" tokens; the `rel`
key is set when the joined string is non-empty (the CPython `is not ""` on line
275 behaves as a non-empty test because small strings are interned). -/
def mkAlternate (base : Option String) (el : Element) (relAttrs : List String) :
    Alternate :=
  let url := urljoin base ((getAttr el "href").getD "")
  let joined := joinSpace (relAttrs.filter (fun r => r != "alternate"))
  { url := url
    rel := if joined ≠ "" then some joined else none
    media := getAttr el "media"
    hreflang := getAttr el "hreflang"
    type := getAttr el "type" }

/-- `parse_rels` (parser.py lines 253-291): for an element with a rel attribute,
resolve its href; if the tokens do not contain "alternate", append the URL under
every token (duplicates included); otherwise append one alternate entry. -/
def parse_rels (base : Option String) (el : Element) (acc : RelsAcc) : RelsAcc :=
  match el.relAttr with
  | none => acc
  | some relAttrs =>
    let url := urljoin base ((getAttr el "href").getD "")
    if !(relAttrs.contains "alternate") then
      { acc with rels := appendAll relAttrs url acc.rels }
    else
      { acc with alternates := some (acc.alternates.getD [] ++ [mkAlternate base el relAttrs]) }

mutual
/-- `find_all(["a", "link"], attrs={'rel': True})` (parser.py line 323): the
anchor/link descendants carrying a rel attribute, in document order. -/
def findRelEls : Element → List Element
  | .mk _ _ _ _ _ _ childEls => findRelElsList childEls
  termination_by structural el => el

def findRelElsList : ElementList → List Element
  | .nil => []
  | .cons h t =>
    (if (h.tag == "a" || h.tag == "link") && h.relAttr.isSome then [h] else [])
      ++ findRelEls h ++ findRelElsList t
  termination_by structural els => els
end

/-! ## Top-level driver -/

structure ParseResult where
  items : List Record
  rels : List (String × List String)
  alternates : Option (List Alternate)

/-- `Parser.parse` (parser.py lines 98-324): record extraction from the document
root, then the independent rel pass over all anchor/link elements. -/
def parserParse (doc : Element) (base : Option String) : ParseResult :=
  let items := parse_el base doc
  let acc := (findRelEls doc).foldl (fun a e => parse_rels base e a) ⟨[], none⟩
  ⟨items, acc.rels, acc.alternates⟩

mutual
/-- `doc.find(tag)` — the first descendant-or-self element with the given tag, in
document order (the document root never matches the tags searched for here). -/
def findTagEl (t : String) : Element → Option Element
  | el@(.mk tag _ _ _ _ _ ch) =>
    if tag == t then some el else findTagList t ch
  termination_by structural el => el

def findTagList (t : String) : ElementList → Option Element
  | .nil => none
  | .cons h tl =>
    match findTagEl t h with
    | some e => some e
    | none => findTagList t tl
  termination_by structural els => els
end

/-- The base-tag handling of `Parser.__init__` (parser.py lines 79-90): an
absolute `<base href>` replaces the URL, a relative one is joined onto a known
URL, a missing or empty href leaves the URL unchanged.  ("specifies an absolute
path" is `urlparse(href).netloc` being non-empty, modelled as the presence of a
scheme separator.) -/
def effectiveUrl (doc : Element) (url : Option String) : Option String :=
  match findTagEl "base" doc with
  | none => url
  | some b =>
    match getAttr b "href" with
    | none => url
    | some h =>
      if h == "" then url
      else if strHasSub h "://" then some h
      else
        match url with
        | some u => some (urljoin (some u) h)
        | none => url

/-- `Parser.__init__` (parser.py lines 57-96): with no document and no URL,
nothing is parsed and the result stays `{"items": [], "rels": {}}`; with a
document, the base URL is resolved and the document parsed.  With no document
but a URL the source fetches the document over the network — an external
collaborator (spec §6) not modelled here, hence `none`. -/
def parserInit : Option Element → Option String → Option ParseResult
  | none, none => some ⟨[], [], none⟩
  | some doc, url => some (parserParse doc (effectiveUrl doc url))
  | none, some _ => none

/-- The two output shapes of `Parser.to_dict` (parser.py lines 326-339). -/
inductive ToDictResult where
  | full (result : ParseResult)
  | filtered (items : List Record)

/-- `Parser.to_dict`: without a filter, the full parsed result object; with a
filter, the bare list of top-level items whose type contains the token. -/
def to_dict (parsed : ParseResult) (filterByType : Option String) : ToDictResult :=
  match filterByType with
  | none => .full parsed
  | some t => .filtered (parsed.items.filter (fun r => r.type.contains t))

/-! ## Spec-side traversal (for the refinement claim about `items`) -/

mutual
/-- Spec-side definition, following the spec's words (§8, first testable
property): the sequence of maximal root-classname elements found by a
depth-first traversal from the document root that does not descend past an
element once it is identified as a root. -/
def specMaximalRoots : Element → List Element
  | el@(.mk _ classes _ _ _ _ ch) =>
    if (mf2Root classes).isEmpty then specMaximalRootsList ch else [el]
  termination_by structural el => el

def specMaximalRootsList : ElementList → List Element
  | .nil => []
  | .cons h t => specMaximalRoots h ++ specMaximalRootsList t
  termination_by structural els => els
end

/-! ## Lemmas about the ordered association maps -/

theorem alistGet_set_self {α : Type} (m : List (String × List α)) (k : String) (v : List α) :
    alistGet (alistSet m k v) k = v := by
  induction m with
  | nil => simp [alistSet, alistGet]
  | cons p rest ih =>
    by_cases h : p.1 = k
    · simp [alistSet, alistGet, h]
    · simp [alistSet, alistGet, h, ih]

theorem alistGet_set_other {α : Type} (m : List (String × List α)) (k k' : String)
    (v : List α) (h : k' ≠ k) :
    alistGet (alistSet m k v) k' = alistGet m k' := by
  induction m with
  | nil => simp [alistSet, alistGet, Ne.symm h]
  | cons p rest ih =>
    by_cases hp : p.1 = k
    · simp [alistSet, alistGet, hp, Ne.symm h]
    · by_cases hp' : p.1 = k'
      · simp [alistSet, alistGet, hp, hp', h]
      · simp [alistSet, alistGet, hp, hp', ih]

theorem alistHas_set_other {α : Type} (m : List (String × List α)) (k k' : String)
    (v : List α) (h : k' ≠ k) :
    alistHas (alistSet m k v) k' = alistHas m k' := by
  induction m with
  | nil => simp [alistSet, alistHas, Ne.symm h]
  | cons p rest ih =>
    by_cases hp : p.1 = k
    · simp [alistSet, alistHas, hp, Ne.symm h]
    · simp [alistSet, alistHas, hp, ih]

theorem alistGet_append_self {α : Type} (m : List (String × List α)) (k : String) (x : α) :
    alistGet (alistAppend m k x) k = alistGet m k ++ [x] := by
  simp [alistAppend, alistGet_set_self]

theorem alistGet_append_other {α : Type} (m : List (String × List α)) (k k' : String)
    (x : α) (h : k' ≠ k) :
    alistGet (alistAppend m k x) k' = alistGet m k' := by
  simp [alistAppend, alistGet_set_other _ _ _ _ h]

theorem appendAll_get {α : Type} (keys : List String) (x : α)
    (m : List (String × List α)) (k : String) :
    alistGet (appendAll keys x m) k = alistGet m k ++ List.replicate (keys.count k) x := by
  induction keys generalizing m with
  | nil => simp [appendAll]
  | cons n rest ih =>
    have step : appendAll (n :: rest) x m = appendAll rest x (alistAppend m n x) := rfl
    rw [step, ih]
    by_cases h : n = k
    · subst h
      rw [alistGet_append_self]
      have : (n :: rest).count n = rest.count n + 1 := by
        simp [List.count_cons]
      rw [this, List.replicate_succ, List.append_assoc]
      rfl
    · rw [alistGet_append_other _ _ _ _ (fun hh => h (Eq.symm hh))]
      have : (n :: rest).count k = rest.count k := by
        simp [List.count_cons, h]
      rw [this]

/-- All values stored under a key, across every entry of the map in order. -/
def allAt {α : Type} : List (String × List α) → String → List α
  | [], _ => []
  | p :: rest, k => (if p.1 == k then p.2 else []) ++ allAt rest k

theorem alistGet_extend_self {α : Type} (m : List (String × List α)) (k : String)
    (xs : List α) :
    alistGet (alistExtend m k xs) k = alistGet m k ++ xs := by
  simp [alistExtend, alistGet_set_self]

theorem alistGet_extend_other {α : Type} (m : List (String × List α)) (k k' : String)
    (xs : List α) (h : k' ≠ k) :
    alistGet (alistExtend m k xs) k' = alistGet m k' := by
  simp [alistExtend, alistGet_set_other _ _ _ _ h]

theorem mergeProps_get (acc new : Props) (k : String) :
    alistGet (mergeProps acc new) k = alistGet acc k ++ allAt new k := by
  induction new generalizing acc with
  | nil => simp [mergeProps, allAt]
  | cons p rest ih =>
    have step : mergeProps acc (p :: rest) = mergeProps (alistExtend acc p.1 p.2) rest := rfl
    rw [step, ih]
    by_cases h : p.1 = k
    · rw [show alistGet (alistExtend acc p.1 p.2) k = alistGet acc k ++ p.2 from
        h ▸ alistGet_extend_self acc p.1 p.2]
      simp [allAt, h, List.append_assoc]
    · rw [alistGet_extend_other _ _ _ _ (fun hh => h (Eq.symm hh))]
      simp [allAt, h]

theorem scanChildren_get_suffix (base : Option String) (els : ElementList) :
    ∀ props children d k, ∃ suf,
      alistGet (scanChildren base els props children d).1 k = alistGet props k ++ suf := by
  refine @ElementList.rec (fun _ => True)
    (fun els => ∀ props children d k, ∃ suf,
      alistGet (scanChildren base els props children d).1 k = alistGet props k ++ suf)
    ?_ ?_ ?_ els
  · intro _ _ _ _ _ _ _ _; trivial
  · intro props children d k
    exact ⟨[], by simp [scanChildren]⟩
  · intro h t _ iht props children d k
    simp only [scanChildren]
    obtain ⟨suf, hs⟩ := iht (mergeProps props (parse_props base h d).1)
      (children ++ (parse_props base h d).2.1) (parse_props base h d).2.2 k
    refine ⟨allAt (parse_props base h d).1 k ++ suf, ?_⟩
    rw [hs, mergeProps_get, List.append_assoc]

/-! ## Key-uniqueness of the maps the parser builds -/

def alistKeys {α : Type} : List (String × List α) → List String
  | [] => []
  | p :: rest => p.1 :: alistKeys rest

theorem mem_alistKeys_iff {α : Type} (m : List (String × List α)) (x : String) :
    x ∈ alistKeys m ↔ ∃ p ∈ m, p.1 = x := by
  induction m with
  | nil => simp [alistKeys]
  | cons p rest ih =>
    rw [show alistKeys (p :: rest) = p.1 :: alistKeys rest from rfl]
    constructor
    · intro h
      rcases List.mem_cons.mp h with h' | h'
      · exact ⟨p, List.mem_cons_self _ _, h'.symm⟩
      · obtain ⟨q, hq, hqx⟩ := ih.mp h'
        exact ⟨q, List.mem_cons_of_mem _ hq, hqx⟩
    · rintro ⟨q, hq, hqx⟩
      rcases List.mem_cons.mp hq with h' | h'
      · exact List.mem_cons.mpr (Or.inl (h' ▸ hqx).symm)
      · exact List.mem_cons.mpr (Or.inr (ih.mpr ⟨q, h', hqx⟩))

theorem mem_alistKeys_set {α : Type} (m : List (String × List α)) (k x : String)
    (v : List α) (h : x ∈ alistKeys (alistSet m k v)) :
    x ∈ alistKeys m ∨ x = k := by
  induction m with
  | nil => simpa [alistSet, alistKeys, or_comm] using h
  | cons p rest ih =>
    by_cases hp : p.1 = k
    · rcases (by simpa [alistSet, alistKeys, hp] using h : x = k ∨ x ∈ alistKeys rest)
        with h' | h'
      · exact Or.inr h'
      · exact Or.inl (by simp [alistKeys, h'])
    · rcases (by simpa [alistSet, alistKeys, hp] using h :
          x = p.1 ∨ x ∈ alistKeys (alistSet rest k v)) with h' | h'
      · exact Or.inl (by simp [alistKeys, h'])
      · rcases ih h' with h'' | h''
        · exact Or.inl (by simp [alistKeys, h''])
        · exact Or.inr h''

theorem alistSet_keys_nodup {α : Type} (m : List (String × List α)) (k : String)
    (v : List α) (h : (alistKeys m).Nodup) :
    (alistKeys (alistSet m k v)).Nodup := by
  induction m with
  | nil => simp [alistSet, alistKeys]
  | cons p rest ih =>
    rw [show alistKeys (p :: rest) = p.1 :: alistKeys rest from rfl,
      List.nodup_cons] at h
    by_cases hp : p.1 = k
    · have : alistSet (p :: rest) k v = (k, v) :: rest := by simp [alistSet, hp]
      rw [this]
      rw [show alistKeys ((k, v) :: rest) = k :: alistKeys rest from rfl, List.nodup_cons]
      exact ⟨hp ▸ h.1, h.2⟩
    · have : alistSet (p :: rest) k v = p :: alistSet rest k v := by simp [alistSet, hp]
      rw [this]
      rw [show alistKeys (p :: alistSet rest k v) = p.1 :: alistKeys (alistSet rest k v)
        from rfl, List.nodup_cons]
      refine ⟨fun hmem => ?_, ih h.2⟩
      rcases mem_alistKeys_set rest k p.1 v hmem with h' | h'
      · exact h.1 h'
      · exact hp h'

theorem appendAll_keys_nodup {α : Type} (keys : List String) (x : α)
    (m : List (String × List α)) (h : (alistKeys m).Nodup) :
    (alistKeys (appendAll keys x m)).Nodup := by
  induction keys generalizing m with
  | nil => simpa [appendAll]
  | cons n rest ih =>
    have step : appendAll (n :: rest) x m = appendAll rest x (alistAppend m n x) := rfl
    rw [step]
    exact ih _ (alistSet_keys_nodup _ _ _ h)

theorem alistGet_of_mem {α : Type} (m : List (String × List α))
    (h : (alistKeys m).Nodup) (p : String × List α) (hp : p ∈ m) :
    alistGet m p.1 = p.2 := by
  induction m with
  | nil => cases hp
  | cons q rest ih =>
    rw [show alistKeys (q :: rest) = q.1 :: alistKeys rest from rfl,
      List.nodup_cons] at h
    rcases List.mem_cons.mp hp with h' | h'
    · subst h'; simp [alistGet]
    · have hne : q.1 ≠ p.1 := by
        intro he
        exact h.1 ((mem_alistKeys_iff rest q.1).mpr ⟨p, h', he.symm⟩)
      simp only [alistGet, show (q.1 == p.1) = false from beq_eq_false_iff_ne.mpr hne,
        Bool.false_eq_true, if_neg, not_false_iff]
      exact ih h.2 h'

theorem mem_alistKeys_appendAll {α : Type} (keys : List String) (x : α)
    (m : List (String × List α)) (k : String)
    (h : k ∈ alistKeys (appendAll keys x m)) :
    k ∈ alistKeys m ∨ k ∈ keys := by
  induction keys generalizing m with
  | nil => exact Or.inl (by simpa [appendAll] using h)
  | cons n rest ih =>
    have step : appendAll (n :: rest) x m = appendAll rest x (alistAppend m n x) := rfl
    rw [step] at h
    rcases ih _ h with h' | h'
    · rcases mem_alistKeys_set m n k _ h' with h'' | h''
      · exact Or.inl h''
      · exact Or.inr (by simp [h''])
    · exact Or.inr (by simp [h'])

theorem alistHas_set_self {α : Type} (m : List (String × List α)) (k : String)
    (v : List α) : alistHas (alistSet m k v) k = true := by
  induction m with
  | nil => simp [alistSet, alistHas]
  | cons p rest ih =>
    by_cases hp : p.1 = k
    · simp [alistSet, alistHas, hp]
    · simp [alistSet, alistHas, hp, ih]

theorem alistGet_eq_nil_of_not_has {α : Type} (m : List (String × List α)) (k : String)
    (h : alistHas m k = false) : alistGet m k = [] := by
  induction m with
  | nil => simp [alistGet]
  | cons p rest ih =>
    simp only [alistHas, Bool.or_eq_false_iff] at h
    simp [alistGet, h.1, ih h.2]

/-! ## Deep well-formedness of produced records (for the append-only /
non-empty-value-list invariant) -/

mutual
inductive ValueDeepOK : PropertyValue → Prop where
  | str (s : String) : ValueDeepOK (.str s)
  | emb (h v : String) : ValueDeepOK (.emb h v)
  | record (r : Record) : RecordDeepOK r → ValueDeepOK (.record r)
inductive RecordDeepOK : Record → Prop where
  | intro (t : List String) (ps : Props) (cs : List Record) (sv : Option PropertyValue)
      (sh co : Option String) :
      (∀ p ∈ ps, p.2 ≠ []) →
      (∀ p ∈ ps, ∀ v ∈ p.2, ValueDeepOK v) →
      (∀ c ∈ cs, RecordDeepOK c) →
      (∀ v, sv = some v → ValueDeepOK v) →
      RecordDeepOK (.mk t ps cs sv sh co)
end

/-- Every key of the map holds a non-empty, deeply well-formed value list. -/
def PropsOK (ps : Props) : Prop :=
  ∀ p ∈ ps, p.2 ≠ [] ∧ ∀ v ∈ p.2, ValueDeepOK v

theorem propsOK_nil : PropsOK [] := by intro p hp; cases hp

theorem mem_alistSet {α : Type} (m : List (String × List α)) (k : String) (v : List α)
    (p : String × List α) (hp : p ∈ alistSet m k v) : p ∈ m ∨ p = (k, v) := by
  induction m with
  | nil => simpa [alistSet] using hp
  | cons q rest ih =>
    by_cases hq : q.1 = k
    · rcases (by simpa [alistSet, hq] using hp : p = (k, v) ∨ p ∈ rest) with h | h
      · exact Or.inr h
      · exact Or.inl (List.mem_cons_of_mem _ h)
    · rcases (by simpa [alistSet, hq] using hp : p = q ∨ p ∈ alistSet rest k v) with h | h
      · exact Or.inl (by simp [h])
      · rcases ih h with h' | h'
        · exact Or.inl (List.mem_cons_of_mem _ h')
        · exact Or.inr h'

theorem alistSet_propsOK (m : Props) (k : String) (v : List PropertyValue)
    (hm : PropsOK m) (hv : v ≠ []) (hvo : ∀ x ∈ v, ValueDeepOK x) :
    PropsOK (alistSet m k v) := by
  intro p hp
  rcases mem_alistSet m k v p hp with h | h
  · exact hm p h
  · subst h; exact ⟨hv, hvo⟩

theorem alistGet_valuesOK (m : Props) (k : String) (hm : PropsOK m) :
    ∀ v ∈ alistGet m k, ValueDeepOK v := by
  induction m with
  | nil => intro v hv; cases hv
  | cons p rest ih =>
    intro v hv
    by_cases hp : p.1 = k
    · exact (hm p (List.mem_cons_self _ _)).2 v (by simpa [alistGet, hp] using hv)
    · exact ih (fun q hq => hm q (List.mem_cons_of_mem _ hq)) v
        (by simpa [alistGet, hp] using hv)

theorem alistAppend_propsOK (m : Props) (k : String) (x : PropertyValue)
    (hm : PropsOK m) (hx : ValueDeepOK x) : PropsOK (alistAppend m k x) := by
  refine alistSet_propsOK m k _ hm (by simp) ?_
  intro v hv
  rcases List.mem_append.mp hv with h | h
  · exact alistGet_valuesOK m k hm v h
  · rw [List.mem_singleton.mp h]; exact hx

theorem alistExtend_propsOK (m : Props) (k : String) (xs : List PropertyValue)
    (hm : PropsOK m) (hxs : xs ≠ []) (hxo : ∀ x ∈ xs, ValueDeepOK x) :
    PropsOK (alistExtend m k xs) := by
  refine alistSet_propsOK m k _ hm (by simp [hxs]) ?_
  intro v hv
  rcases List.mem_append.mp hv with h | h
  · exact alistGet_valuesOK m k hm v h
  · exact hxo v h

theorem appendAll_propsOK (keys : List String) (x : PropertyValue) (m : Props)
    (hm : PropsOK m) (hx : ValueDeepOK x) : PropsOK (appendAll keys x m) := by
  induction keys generalizing m with
  | nil => simpa [appendAll]
  | cons n rest ih =>
    have step : appendAll (n :: rest) x m = appendAll rest x (alistAppend m n x) := rfl
    rw [step]
    exact ih _ (alistAppend_propsOK m n x hm hx)

theorem mergeProps_propsOK (acc new : Props) (ha : PropsOK acc) (hn : PropsOK new) :
    PropsOK (mergeProps acc new) := by
  induction new generalizing acc with
  | nil => simpa [mergeProps]
  | cons p rest ih =>
    have step : mergeProps acc (p :: rest) = mergeProps (alistExtend acc p.1 p.2) rest := rfl
    rw [step]
    have hp := hn p (List.mem_cons_self _ _)
    exact ih _ (alistExtend_propsOK acc p.1 p.2 ha hp.1 hp.2)
      (fun q hq => hn q (List.mem_cons_of_mem _ hq))

theorem impliedName_ok (el : Element) :
    impliedName el ≠ [] ∧ ∀ v ∈ impliedName el, ValueDeepOK v := by
  unfold impliedName
  repeat' split
  all_goals
    refine ⟨by simp, ?_⟩
  all_goals
    intro v hv
  all_goals
    obtain rfl := List.mem_singleton.mp hv
  all_goals
    exact ValueDeepOK.str _

theorem impliedPhoto_ok (el : Element) (base : Option String) (x : List PropertyValue)
    (h : impliedPhoto el base = some x) :
    x ≠ [] ∧ ∀ v ∈ x, ValueDeepOK v := by
  unfold impliedPhoto at h
  split at h
  · obtain ⟨s, _, hs⟩ := Option.map_eq_some'.mp h
    refine hs ▸ ⟨by simp, ?_⟩
    intro v hv
    obtain rfl := List.mem_singleton.mp hv
    exact ValueDeepOK.str _
  · split at h
    · obtain ⟨s, _, hs⟩ := Option.map_eq_some'.mp h
      refine hs ▸ ⟨by simp, ?_⟩
      intro v hv
      obtain rfl := List.mem_singleton.mp hv
      exact ValueDeepOK.str _
    · cases h

theorem impliedUrl_ok (el : Element) (base : Option String) (x : List PropertyValue)
    (h : impliedUrl el base = some x) :
    x ≠ [] ∧ ∀ v ∈ x, ValueDeepOK v := by
  unfold impliedUrl at h
  split at h
  · obtain ⟨s, _, hs⟩ := Option.map_eq_some'.mp h
    refine hs ▸ ⟨by simp, ?_⟩
    intro v hv
    obtain rfl := List.mem_singleton.mp hv
    exact ValueDeepOK.str _
  · split at h
    · obtain ⟨s, _, hs⟩ := Option.map_eq_some'.mp h
      refine hs ▸ ⟨by simp, ?_⟩
      intro v hv
      obtain rfl := List.mem_singleton.mp hv
      exact ValueDeepOK.str _
    · cases h

theorem setIfAbsent_propsOK (m : Props) (k : String) (impl : Option (List PropertyValue))
    (hm : PropsOK m) (himpl : ∀ x, impl = some x → x ≠ [] ∧ ∀ v ∈ x, ValueDeepOK v) :
    PropsOK (setIfAbsent m k impl) := by
  unfold setIfAbsent
  split
  · exact hm
  · cases himp : impl with
    | none => simpa using hm
    | some x =>
      simp only
      exact alistSet_propsOK m k x hm (himpl x himp).1 (himpl x himp).2

theorem setIfAbsent_get_self (m : Props) (k : String) (impl : Option (List PropertyValue)) :
    alistGet (setIfAbsent m k impl) k =
      if alistHas m k then alistGet m k else impl.getD (alistGet m k) := by
  unfold setIfAbsent
  split
  · rfl
  · cases impl with
    | none => rfl
    | some x => simp [alistGet_set_self]

theorem setIfAbsent_get_other (m : Props) (k k' : String)
    (impl : Option (List PropertyValue)) (h : k' ≠ k) :
    alistGet (setIfAbsent m k impl) k' = alistGet m k' := by
  unfold setIfAbsent
  split
  · rfl
  · cases impl with
    | none => rfl
    | some x => simp [alistGet_set_other _ _ _ _ h]

theorem setIfAbsent_has_self (m : Props) (k : String) (impl : Option (List PropertyValue)) :
    alistHas (setIfAbsent m k impl) k = (alistHas m k || impl.isSome) := by
  unfold setIfAbsent
  by_cases h : alistHas m k
  · simp [h]
  · cases impl with
    | none => simp [h]
    | some x => simp [h, alistHas_set_self]

theorem setIfAbsent_has_other (m : Props) (k k' : String)
    (impl : Option (List PropertyValue)) (h : k' ≠ k) :
    alistHas (setIfAbsent m k impl) k' = alistHas m k' := by
  unfold setIfAbsent
  split
  · rfl
  · cases impl with
    | none => rfl
    | some x => simp [alistHas_set_other _ _ _ _ h]

theorem buildMf_ok (rcn : List String) (el : Element) (sv : Option PropertyValue)
    (base : Option String) (scanned : Props × List Record × Option String)
    (h1 : PropsOK scanned.1) (h2 : ∀ r ∈ scanned.2.1, RecordDeepOK r)
    (h3 : ∀ v, sv = some v → ValueDeepOK v) :
    RecordDeepOK (buildMf rcn el sv base scanned) := by
  unfold buildMf
  have hP : PropsOK (setIfAbsent (setIfAbsent (setIfAbsent scanned.1 "name"
      (some (impliedName el))) "photo" (impliedPhoto el base)) "url" (impliedUrl el base)) := by
    refine setIfAbsent_propsOK _ _ _ (setIfAbsent_propsOK _ _ _ (setIfAbsent_propsOK _ _ _ h1
      ?_) ?_) ?_
    · intro x hx
      rw [Option.some_inj.mp hx.symm]
      exact impliedName_ok el
    · exact fun x hx => impliedPhoto_ok el base x hx
    · exact fun x hx => impliedUrl_ok el base x hx
  exact RecordDeepOK.intro _ _ _ _ _ _ (fun p hp => (hP p hp).1) (fun p hp => (hP p hp).2)
    h2 h3

/-! ## Well-formedness of the values and maps `parse_props` builds -/

theorem pVal_ok (base : Option String) (el : Element)
    (scanned : Props × List Record × Option String)
    (h1 : PropsOK scanned.1) (h2 : ∀ r ∈ scanned.2.1, RecordDeepOK r) :
    ValueDeepOK (pVal base el scanned) := by
  unfold pVal
  split
  · exact ValueDeepOK.str _
  · exact ValueDeepOK.record _ (buildMf_ok _ _ _ _ _ h1 h2
      (fun v hv => by cases hv; exact ValueDeepOK.str _))

theorem uVal_ok (base : Option String) (el : Element)
    (scanned : Props × List Record × Option String)
    (h1 : PropsOK scanned.1) (h2 : ∀ r ∈ scanned.2.1, RecordDeepOK r) :
    ValueDeepOK (uVal base el scanned) := by
  unfold uVal
  split
  · exact ValueDeepOK.str _
  · exact ValueDeepOK.record _ (buildMf_ok _ _ _ _ _ h1 h2
      (fun v hv => by cases hv; exact ValueDeepOK.str _))

theorem dVal_ok (base : Option String) (el : Element)
    (scanned : Props × List Record × Option String) (d : Option String)
    (h1 : PropsOK scanned.1) (h2 : ∀ r ∈ scanned.2.1, RecordDeepOK r) :
    ValueDeepOK (dVal base el scanned d) := by
  unfold dVal
  split
  · exact ValueDeepOK.str _
  · exact ValueDeepOK.record _ (buildMf_ok _ _ _ _ _ h1 h2
      (fun v hv => by cases hv; exact ValueDeepOK.str _))

theorem eVal_ok (base : Option String) (el : Element)
    (scanned : Props × List Record × Option String)
    (h1 : PropsOK scanned.1) (h2 : ∀ r ∈ scanned.2.1, RecordDeepOK r) :
    ValueDeepOK (eVal base el scanned) := by
  unfold eVal parsePropEmbedded
  split
  · exact ValueDeepOK.emb _ _
  · exact ValueDeepOK.record _ (buildMf_ok _ _ _ _ _ h1 h2
      (fun v hv => by cases hv; exact ValueDeepOK.emb _ _))

theorem elementPhases_fst (base : Option String) (el : Element)
    (scanned : Props × List Record × Option String) (d0 : Option String) :
    (elementPhases base el scanned d0).1 =
      appendAll (mf2Embedded el.classes) (eVal base el scanned)
        (appendAll (mf2Datetime el.classes)
          (dVal base el scanned (dtPhaseDate base el scanned d0))
          (appendAll (mf2Url el.classes) (uVal base el scanned)
            (appendAll (mf2Text el.classes) (pVal base el scanned) []))) := rfl

theorem elementPhases_propsOK (base : Option String) (el : Element)
    (scanned : Props × List Record × Option String) (d0 : Option String)
    (h1 : PropsOK scanned.1) (h2 : ∀ r ∈ scanned.2.1, RecordDeepOK r) :
    PropsOK (elementPhases base el scanned d0).1 := by
  rw [elementPhases_fst]
  exact appendAll_propsOK _ _ _ (appendAll_propsOK _ _ _ (appendAll_propsOK _ _ _
    (appendAll_propsOK _ _ _ propsOK_nil (pVal_ok base el scanned h1 h2))
    (uVal_ok base el scanned h1 h2)) (dVal_ok base el scanned _ h1 h2))
    (eVal_ok base el scanned h1 h2)

theorem elementPhases_get (base : Option String) (el : Element)
    (scanned : Props × List Record × Option String) (d0 : Option String) (k : String) :
    alistGet (elementPhases base el scanned d0).1 k =
      List.replicate ((mf2Text el.classes).count k) (pVal base el scanned)
      ++ (List.replicate ((mf2Url el.classes).count k) (uVal base el scanned)
      ++ (List.replicate ((mf2Datetime el.classes).count k)
            (dVal base el scanned (dtPhaseDate base el scanned d0))
      ++ List.replicate ((mf2Embedded el.classes).count k) (eVal base el scanned))) := by
  rw [elementPhases_fst, appendAll_get, appendAll_get, appendAll_get, appendAll_get]
  simp [alistGet, List.append_assoc]

theorem elementPhases_keys_nodup (base : Option String) (el : Element)
    (scanned : Props × List Record × Option String) (d0 : Option String) :
    (alistKeys (elementPhases base el scanned d0).1).Nodup := by
  rw [elementPhases_fst]
  exact appendAll_keys_nodup _ _ _ (appendAll_keys_nodup _ _ _ (appendAll_keys_nodup _ _ _
    (appendAll_keys_nodup _ _ _ (by simp [alistKeys]))))

/-- The unfolding of `parse_props` on a constructed element. -/
theorem parse_props_eq (base : Option String) (tag : String) (classes : List String)
    (relA : Option (List String)) (attrs : List (String × String)) (tx ihtml : String)
    (ch : ElementList) (d0 : Option String) :
    parse_props base (.mk tag classes relA attrs tx ihtml ch) d0 =
      (let el := Element.mk tag classes relA attrs tx ihtml ch
       let rcn := mf2Root classes
       let scanned := scanChildren base ch [] [] none
       let ph := elementPhases base el scanned d0
       let bare :=
         if !(hasPropClasses classes) && !rcn.isEmpty then
           ([buildMf rcn el none base scanned], scanned.2.2)
         else ([], ph.2)
       if rcn.isEmpty then scanChildren base ch ph.1 bare.1 bare.2
       else (ph.1, bare.1, bare.2)) := rfl

/-- The unfolding of `scanChildren` on a cons cell. -/
theorem scanChildren_cons (base : Option String) (h : Element) (t : ElementList)
    (props : Props) (children : List Record) (d : Option String) :
    scanChildren base (.cons h t) props children d =
      scanChildren base t (mergeProps props (parse_props base h d).1)
        (children ++ (parse_props base h d).2.1) (parse_props base h d).2.2 := rfl

/-- The second component of `elementPhases` for a root element that declares at
least one property name: the default date left behind is the final date of the
element's own child scan. -/
theorem elementPhases_snd_of_root (base : Option String) (el : Element)
    (scanned : Props × List Record × Option String) (d0 : Option String)
    (hr : (mf2Root el.classes).isEmpty = false)
    (hp : hasPropClasses el.classes = true) :
    (elementPhases base el scanned d0).2 = scanned.2.2 := by
  have hsnd : (elementPhases base el scanned d0).2 =
      (if (mf2Embedded el.classes).isEmpty || (mf2Root el.classes).isEmpty then
        (if (mf2Datetime el.classes).isEmpty then dtPhaseDate base el scanned d0
         else if (mf2Root el.classes).isEmpty then
           dtNewDate el (dtPhaseDate base el scanned d0)
         else scanned.2.2)
       else scanned.2.2) := rfl
  rw [hsnd]
  unfold hasPropClasses at hp
  unfold dtPhaseDate
  cases hT : (mf2Text el.classes).isEmpty <;> cases hU : (mf2Url el.classes).isEmpty <;>
    cases hD : (mf2Datetime el.classes).isEmpty <;>
    cases hE : (mf2Embedded el.classes).isEmpty <;>
    simp_all

/-- For an element with root classnames, the default date after `parse_props` is
the final date of the element's own child scan (which started unset), regardless
of the incoming date. -/
theorem parse_props_out_date (base : Option String) (el : Element) (d0 : Option String)
    (h : (mf2Root el.classes).isEmpty = false) :
    (parse_props base el d0).2.2 = (scanChildren base el.children [] [] none).2.2 := by
  cases el with
  | mk tag classes relA attrs tx ihtml ch =>
    simp only [Element.classes] at h
    rw [parse_props_eq]
    by_cases hp : hasPropClasses classes = true
    · have hph := elementPhases_snd_of_root base (.mk tag classes relA attrs tx ihtml ch)
        (scanChildren base ch [] [] none) d0 (by simpa [Element.classes] using h)
        (by simpa [Element.classes] using hp)
      simp [h, hp, Element.children, hph]
    · have hp' : hasPropClasses classes = false := by simpa using hp
      simp [h, hp', Element.children]

/-! ## The deep invariant over the whole scan -/

def ScanElOK (base : Option String) (el : Element) : Prop :=
  ∀ d, PropsOK (parse_props base el d).1 ∧
    ∀ r ∈ (parse_props base el d).2.1, RecordDeepOK r

def ScanListOK (base : Option String) (els : ElementList) : Prop :=
  ∀ props children d, PropsOK props → (∀ r ∈ children, RecordDeepOK r) →
    PropsOK (scanChildren base els props children d).1 ∧
    ∀ r ∈ (scanChildren base els props children d).2.1, RecordDeepOK r

theorem scanListOK_nil (base : Option String) : ScanListOK base .nil := by
  intro props children d hp hc
  simpa [scanChildren] using ⟨hp, hc⟩

theorem scanListOK_cons (base : Option String) (h : Element) (t : ElementList)
    (ihh : ScanElOK base h) (iht : ScanListOK base t) :
    ScanListOK base (.cons h t) := by
  intro props children d hp hc
  rw [scanChildren_cons]
  refine iht _ _ _ (mergeProps_propsOK _ _ hp (ihh d).1) ?_
  intro r hr
  rcases List.mem_append.mp hr with h' | h'
  · exact hc r h'
  · exact (ihh d).2 r h'

theorem scanElOK_mk (base : Option String) (tag : String) (classes : List String)
    (relA : Option (List String)) (attrs : List (String × String)) (tx ihtml : String)
    (ch : ElementList) (ih : ScanListOK base ch) :
    ScanElOK base (.mk tag classes relA attrs tx ihtml ch) := by
  intro d
  have hscan := ih [] [] none propsOK_nil (fun r hr => absurd hr (List.not_mem_nil r))
  rw [parse_props_eq]
  cases hrB : (mf2Root classes).isEmpty
  · simp only [hrB, Bool.false_eq_true, if_neg, not_false_iff, Bool.not_false,
      Bool.and_true]
    refine ⟨elementPhases_propsOK base _ _ d hscan.1 hscan.2, ?_⟩
    intro r hrm
    cases hpB : hasPropClasses classes
    · simp only [hpB, Bool.not_false, if_pos] at hrm
      obtain rfl := List.mem_singleton.mp hrm
      exact buildMf_ok _ _ _ _ _ hscan.1 hscan.2 (fun v hv => by cases hv)
    · simp [hpB] at hrm
  · simp only [hrB, if_pos, Bool.not_true, Bool.and_false, Bool.false_eq_true, if_neg,
      not_false_iff]
    exact ih _ _ _ (elementPhases_propsOK base _ _ d hscan.1 hscan.2)
      (fun r hr' => absurd hr' (List.not_mem_nil r))

theorem scanElOK (base : Option String) (el : Element) : ScanElOK base el :=
  @Element.rec (ScanElOK base) (ScanListOK base)
    (fun tag classes relA attrs tx ihtml ch ih =>
      scanElOK_mk base tag classes relA attrs tx ihtml ch ih)
    (scanListOK_nil base)
    (fun h t ihh iht => scanListOK_cons base h t ihh iht)
    el

theorem scanListOK (base : Option String) (els : ElementList) : ScanListOK base els :=
  @ElementList.rec (ScanElOK base) (ScanListOK base)
    (fun tag classes relA attrs tx ihtml ch ih =>
      scanElOK_mk base tag classes relA attrs tx ihtml ch ih)
    (scanListOK_nil base)
    (fun h t ihh iht => scanListOK_cons base h t ihh iht)
    els

/-! ## `parse_el` agrees with the spec-side maximal-root traversal -/

/-- The top-level record built for a maximal root element. -/
def topRecord (base : Option String) (e : Element) : Record :=
  (handle_microformat base (mf2Root e.classes) e none).1

def ParseElSpec (base : Option String) (el : Element) : Prop :=
  parse_el base el = (specMaximalRoots el).map (topRecord base)

def ParseElListSpec (base : Option String) (els : ElementList) : Prop :=
  parse_el_list base els = (specMaximalRootsList els).map (topRecord base)

theorem parseElSpec_mk (base : Option String) (tag : String) (classes : List String)
    (relA : Option (List String)) (attrs : List (String × String)) (tx ihtml : String)
    (ch : ElementList) (ih : ParseElListSpec base ch) :
    ParseElSpec base (.mk tag classes relA attrs tx ihtml ch) := by
  unfold ParseElSpec
  unfold ParseElListSpec at ih
  have e1 : parse_el base (.mk tag classes relA attrs tx ihtml ch) =
      if (mf2Root classes).isEmpty then parse_el_list base ch
      else [(handle_microformat base (mf2Root classes)
        (.mk tag classes relA attrs tx ihtml ch) none).1] := rfl
  have e2 : specMaximalRoots (.mk tag classes relA attrs tx ihtml ch) =
      if (mf2Root classes).isEmpty then specMaximalRootsList ch
      else [Element.mk tag classes relA attrs tx ihtml ch] := rfl
  rw [e1, e2]
  cases hrB : (mf2Root classes).isEmpty
  · simp [topRecord, Element.classes]
  · simpa using ih

theorem parseElListSpec_nil (base : Option String) : ParseElListSpec base .nil := rfl

theorem parseElListSpec_cons (base : Option String) (h : Element) (t : ElementList)
    (ihh : ParseElSpec base h) (iht : ParseElListSpec base t) :
    ParseElListSpec base (.cons h t) := by
  unfold ParseElListSpec
  have e1 : parse_el_list base (.cons h t) = parse_el base h ++ parse_el_list base t := rfl
  have e2 : specMaximalRootsList (.cons h t) =
      specMaximalRoots h ++ specMaximalRootsList t := rfl
  rw [e1, e2, List.map_append, ihh, iht]

theorem parse_el_spec (base : Option String) (el : Element) :
    parse_el base el = (specMaximalRoots el).map (topRecord base) :=
  @Element.rec (ParseElSpec base) (ParseElListSpec base)
    (fun tag classes relA attrs tx ihtml ch ih =>
      parseElSpec_mk base tag classes relA attrs tx ihtml ch ih)
    (parseElListSpec_nil base)
    (fun h t ihh iht => parseElListSpec_cons base h t ihh iht)
    el

/-- Every record `parse_el` produces is deeply well-formed. -/
theorem parse_el_items_ok (base : Option String) (el : Element) :
    ∀ r ∈ parse_el base el, RecordDeepOK r := by
  rw [parse_el_spec]
  intro r hr
  obtain ⟨e, _, rfl⟩ := List.mem_map.mp hr
  have hscan := scanListOK base e.children [] [] none propsOK_nil
    (fun r hr' => absurd hr' (List.not_mem_nil r))
  exact buildMf_ok _ _ _ _ _ hscan.1 hscan.2 (fun v hv => by cases hv)

/-! ## Lookups in the full `parse_props` output -/

/-- In the output of `parse_props`, the values under a key start with the values
the element itself appended (its category phases), followed by whatever the
child recursion merged in afterwards (nothing when the element is a root). -/
theorem parse_props_get (base : Option String) (el : Element) (d0 : Option String)
    (k : String) :
    ∃ suffix,
      ((mf2Root el.classes).isEmpty = false → suffix = []) ∧
      alistGet (parse_props base el d0).1 k =
        alistGet (elementPhases base el (scanChildren base el.children [] [] none) d0).1 k
          ++ suffix := by
  cases el with
  | mk tag classes relA attrs tx ihtml ch =>
    rw [parse_props_eq]
    cases hrB : (mf2Root classes).isEmpty
    · refine ⟨[], fun _ => rfl, ?_⟩
      simp [hrB, Element.children, Element.classes]
    · simp only [hrB, if_pos, Bool.not_true, Bool.and_false, Bool.false_eq_true, if_neg,
        not_false_iff]
      obtain ⟨suf, hs⟩ := scanChildren_get_suffix base ch
        (elementPhases base (.mk tag classes relA attrs tx ihtml ch)
          (scanChildren base ch [] [] none) d0).1 [] _ k
      refine ⟨suf, fun hcontra => ?_, ?_⟩
      · simp [Element.classes, hrB] at hcontra
      · simpa [Element.children, Element.classes] using hs

theorem isEmpty_false_of_ne_nil {α : Type} (l : List α) (h : l ≠ []) :
    l.isEmpty = false := by
  cases l with
  | nil => exact absurd rfl h
  | cons a t => rfl

/-! ## The four property categories -/

inductive Cat where
  | p | u | dt | e
deriving DecidableEq, Fintype

/-- The property names an element's class list declares in one category. -/
def catNames : Cat → List String → List String
  | .p => mf2Text
  | .u => mf2Url
  | .dt => mf2Datetime
  | .e => mf2Embedded

/-- The single computed value of one category on one element (`d2` is the
default date in effect when the dt-* loop first runs). -/
def catValue (c : Cat) (base : Option String) (el : Element)
    (scanned : Props × List Record × Option String) (d2 : Option String) :
    PropertyValue :=
  match c with
  | .p => pVal base el scanned
  | .u => uVal base el scanned
  | .dt => dVal base el scanned d2
  | .e => eVal base el scanned

/-- For a property name declared in exactly one category, the values under that
name in the `parse_props` output start with one or more copies of the single
computed category value (one copy per occurrence of the classname), followed
only by values merged later from child elements. -/
theorem parse_props_head (base : Option String) (el : Element) (d : Option String)
    (c : Cat) (k : String)
    (hk : k ∈ catNames c el.classes)
    (ho : ∀ c2 : Cat, c2 ≠ c → k ∉ catNames c2 el.classes) :
    ∃ n suffix, n ≠ 0 ∧
      alistGet (parse_props base el d).1 k =
        List.replicate n
          (catValue c base el (scanChildren base el.children [] [] none)
            (dtPhaseDate base el (scanChildren base el.children [] [] none) d))
          ++ suffix := by
  obtain ⟨suf, _, hg⟩ := parse_props_get base el d k
  rw [hg, elementPhases_get]
  cases c with
  | p =>
    have h0u : (mf2Url el.classes).count k = 0 :=
      List.count_eq_zero.mpr (ho .u (by decide))
    have h0d : (mf2Datetime el.classes).count k = 0 :=
      List.count_eq_zero.mpr (ho .dt (by decide))
    have h0e : (mf2Embedded el.classes).count k = 0 :=
      List.count_eq_zero.mpr (ho .e (by decide))
    refine ⟨(mf2Text el.classes).count k, suf, ?_, ?_⟩
    · exact fun h0 => (List.count_eq_zero.mp h0) hk
    · simp [h0u, h0d, h0e, catValue]
  | u =>
    have h0p : (mf2Text el.classes).count k = 0 :=
      List.count_eq_zero.mpr (ho .p (by decide))
    have h0d : (mf2Datetime el.classes).count k = 0 :=
      List.count_eq_zero.mpr (ho .dt (by decide))
    have h0e : (mf2Embedded el.classes).count k = 0 :=
      List.count_eq_zero.mpr (ho .e (by decide))
    refine ⟨(mf2Url el.classes).count k, suf, ?_, ?_⟩
    · exact fun h0 => (List.count_eq_zero.mp h0) hk
    · simp [h0p, h0d, h0e, catValue]
  | dt =>
    have h0p : (mf2Text el.classes).count k = 0 :=
      List.count_eq_zero.mpr (ho .p (by decide))
    have h0u : (mf2Url el.classes).count k = 0 :=
      List.count_eq_zero.mpr (ho .u (by decide))
    have h0e : (mf2Embedded el.classes).count k = 0 :=
      List.count_eq_zero.mpr (ho .e (by decide))
    refine ⟨(mf2Datetime el.classes).count k, suf, ?_, ?_⟩
    · exact fun h0 => (List.count_eq_zero.mp h0) hk
    · simp [h0p, h0u, h0e, catValue]
  | e =>
    have h0p : (mf2Text el.classes).count k = 0 :=
      List.count_eq_zero.mpr (ho .p (by decide))
    have h0u : (mf2Url el.classes).count k = 0 :=
      List.count_eq_zero.mpr (ho .u (by decide))
    have h0d : (mf2Datetime el.classes).count k = 0 :=
      List.count_eq_zero.mpr (ho .dt (by decide))
    refine ⟨(mf2Embedded el.classes).count k, suf, ?_, ?_⟩
    · exact fun h0 => (List.count_eq_zero.mp h0) hk
    · simp [h0p, h0u, h0d, catValue]

/-- For an element with root classnames, `parse_props` yields only whole nested
records (built from the element itself, each carrying a simple value) under the
element's own declared property names, plus at most the one bare child record;
nothing from the element's internals reaches the enclosing map directly. -/
theorem parse_props_root_shape (base : Option String) (el : Element) (d : Option String)
    (h : (mf2Root el.classes).isEmpty = false) :
    (∀ p ∈ (parse_props base el d).1,
        (p.1 ∈ mf2Text el.classes ∨ p.1 ∈ mf2Url el.classes ∨
         p.1 ∈ mf2Datetime el.classes ∨ p.1 ∈ mf2Embedded el.classes) ∧
        ∀ v ∈ p.2, ∃ sv, v = PropertyValue.record
          (buildMf (mf2Root el.classes) el (some sv) base
            (scanChildren base el.children [] [] none))) ∧
    (parse_props base el d).2.1 =
      (if hasPropClasses el.classes then []
       else [buildMf (mf2Root el.classes) el none base
          (scanChildren base el.children [] [] none)]) := by
  cases el with
  | mk tag classes relA attrs tx ihtml ch =>
    simp only [Element.classes, Element.children] at h ⊢
    rw [parse_props_eq]
    simp only [h, Bool.false_eq_true, if_neg, not_false_iff, Bool.not_false, Bool.and_true]
    constructor
    · intro p hp
      have hnodup := elementPhases_keys_nodup base (Element.mk tag classes relA attrs tx ihtml ch)
        (scanChildren base ch [] [] none) d
      have hget := alistGet_of_mem _ hnodup p hp
      rw [elementPhases_get] at hget
      simp only [Element.classes] at hget
      constructor
      · have hkm : p.1 ∈ alistKeys (elementPhases base
            (Element.mk tag classes relA attrs tx ihtml ch)
            (scanChildren base ch [] [] none) d).1 :=
          (mem_alistKeys_iff _ _).mpr ⟨p, hp, rfl⟩
        rw [elementPhases_fst] at hkm
        simp only [Element.classes] at hkm
        rcases mem_alistKeys_appendAll _ _ _ _ hkm with hkm | hkm
        · rcases mem_alistKeys_appendAll _ _ _ _ hkm with hkm | hkm
          · rcases mem_alistKeys_appendAll _ _ _ _ hkm with hkm | hkm
            · rcases mem_alistKeys_appendAll _ _ _ _ hkm with hkm | hkm
              · simp [alistKeys] at hkm
              · exact Or.inl hkm
            · exact Or.inr (Or.inl hkm)
          · exact Or.inr (Or.inr (Or.inl hkm))
        · exact Or.inr (Or.inr (Or.inr hkm))
      · intro v hv
        rw [← hget] at hv
        rcases List.mem_append.mp hv with hv | hv
        · refine ⟨.str (strTrim (parsePropText (Element.mk tag classes relA attrs tx ihtml ch))), ?_⟩
          rw [List.eq_of_mem_replicate hv]
          unfold pVal
          simp [Element.classes, h]
        · rcases List.mem_append.mp hv with hv | hv
          · refine ⟨.str (parsePropUrl (Element.mk tag classes relA attrs tx ihtml ch) base), ?_⟩
            rw [List.eq_of_mem_replicate hv]
            unfold uVal
            simp [Element.classes, h]
          · rcases List.mem_append.mp hv with hv | hv
            · refine ⟨.str ((parsePropDatetime (Element.mk tag classes relA attrs tx ihtml ch)
                (dtPhaseDate base (Element.mk tag classes relA attrs tx ihtml ch)
                  (scanChildren base ch [] [] none) d)).1), ?_⟩
              rw [List.eq_of_mem_replicate hv]
              unfold dVal
              simp [Element.classes, h]
            · refine ⟨parsePropEmbedded (Element.mk tag classes relA attrs tx ihtml ch), ?_⟩
              rw [List.eq_of_mem_replicate hv]
              unfold eVal
              simp [Element.classes, h]
    · cases hpB : hasPropClasses classes
      · simp [hpB]
      · simp [hpB]

/-! ## The implied-property guards of `handle_microformat` -/

theorem buildMf_props (rcn : List String) (el : Element) (sv : Option PropertyValue)
    (base : Option String) (scanned : Props × List Record × Option String) :
    (buildMf rcn el sv base scanned).properties =
      setIfAbsent (setIfAbsent (setIfAbsent scanned.1 "name" (some (impliedName el)))
        "photo" (impliedPhoto el base)) "url" (impliedUrl el base) := rfl

theorem buildMf_get_name (rcn : List String) (el : Element) (sv : Option PropertyValue)
    (base : Option String) (scanned : Props × List Record × Option String) :
    alistGet (buildMf rcn el sv base scanned).properties "name" =
      if alistHas scanned.1 "name" then alistGet scanned.1 "name" else impliedName el := by
  rw [buildMf_props, setIfAbsent_get_other _ _ _ _ (by decide),
    setIfAbsent_get_other _ _ _ _ (by decide), setIfAbsent_get_self]
  cases hs : alistHas scanned.1 "name" <;> simp

theorem buildMf_get_photo (rcn : List String) (el : Element) (sv : Option PropertyValue)
    (base : Option String) (scanned : Props × List Record × Option String) :
    alistGet (buildMf rcn el sv base scanned).properties "photo" =
      if alistHas scanned.1 "photo" then alistGet scanned.1 "photo"
      else (impliedPhoto el base).getD [] := by
  rw [buildMf_props, setIfAbsent_get_other _ _ _ _ (by decide), setIfAbsent_get_self,
    setIfAbsent_get_other _ _ _ _ (by decide),
    setIfAbsent_has_other _ _ _ _ (by decide)]
  cases hs : alistHas scanned.1 "photo" <;>
    simp [hs, alistGet_eq_nil_of_not_has]

theorem buildMf_get_url (rcn : List String) (el : Element) (sv : Option PropertyValue)
    (base : Option String) (scanned : Props × List Record × Option String) :
    alistGet (buildMf rcn el sv base scanned).properties "url" =
      if alistHas scanned.1 "url" then alistGet scanned.1 "url"
      else (impliedUrl el base).getD [] := by
  rw [buildMf_props, setIfAbsent_get_self,
    setIfAbsent_get_other _ _ _ _ (by decide),
    setIfAbsent_get_other _ _ _ _ (by decide),
    setIfAbsent_has_other _ _ _ _ (by decide),
    setIfAbsent_has_other _ _ _ _ (by decide)]
  cases hs : alistHas scanned.1 "url" <;>
    simp [hs, alistGet_eq_nil_of_not_has]

theorem buildMf_has_name (rcn : List String) (el : Element) (sv : Option PropertyValue)
    (base : Option String) (scanned : Props × List Record × Option String) :
    alistHas (buildMf rcn el sv base scanned).properties "name" = true := by
  rw [buildMf_props, setIfAbsent_has_other _ _ _ _ (by decide),
    setIfAbsent_has_other _ _ _ _ (by decide), setIfAbsent_has_self]
  cases hs : alistHas scanned.1 "name" <;> simp

theorem buildMf_has_photo (rcn : List String) (el : Element) (sv : Option PropertyValue)
    (base : Option String) (scanned : Props × List Record × Option String) :
    alistHas (buildMf rcn el sv base scanned).properties "photo" =
      (alistHas scanned.1 "photo" || (impliedPhoto el base).isSome) := by
  rw [buildMf_props, setIfAbsent_has_other _ _ _ _ (by decide), setIfAbsent_has_self,
    setIfAbsent_has_other _ _ _ _ (by decide)]

theorem buildMf_has_url (rcn : List String) (el : Element) (sv : Option PropertyValue)
    (base : Option String) (scanned : Props × List Record × Option String) :
    alistHas (buildMf rcn el sv base scanned).properties "url" =
      (alistHas scanned.1 "url" || (impliedUrl el base).isSome) := by
  rw [buildMf_props, setIfAbsent_has_self, setIfAbsent_has_other _ _ _ _ (by decide),
    setIfAbsent_has_other _ _ _ _ (by decide)]

/-! ## Space-joined rel tokens -/

theorem joinSpace_foldl_data_ne (l : List String) (a : String) (ha : a.data ≠ []) :
    (l.foldl (fun x s => x ++ " " ++ s) a).data ≠ [] := by
  induction l generalizing a with
  | nil => simpa using ha
  | cons s rest ih =>
    have step : (s :: rest).foldl (fun x t => x ++ " " ++ t) a =
        rest.foldl (fun x t => x ++ " " ++ t) (a ++ " " ++ s) := rfl
    rw [step]
    apply ih
    have hdata : (a ++ " " ++ s).data = (a.data ++ [' ']) ++ s.data := rfl
    rw [hdata]
    simp

theorem joinSpace_ne_empty (l : List String) (hne : l ≠ []) (h : ∀ s ∈ l, s ≠ "") :
    joinSpace l ≠ "" := by
  cases l with
  | nil => exact absurd rfl hne
  | cons a t =>
    have ha : a.data ≠ [] := by
      intro hd
      apply h a (List.mem_cons_self _ _)
      cases a with
      | mk d =>
        have hd' : d = [] := hd
        rw [hd']
    intro hj
    apply joinSpace_foldl_data_ne t a ha
    rw [show joinSpace (a :: t) = t.foldl (fun x s => x ++ " " ++ s) a from rfl] at hj
    rw [hj]

/-! ## Concrete documents for witnesses and counterexamples -/

/-- A leaf element carrying only classes and text. -/
def elT (tag : String) (classes : List String) (text : String) : Element :=
  .mk tag classes none [] text "" .nil

/-- An element carrying classes and children. -/
def elC (tag : String) (classes : List String) (children : List Element) : Element :=
  .mk tag classes none [] "" "" (toEL children)

/-- An element carrying a rel attribute and plain attributes. -/
def elRel (tag : String) (rel : List String) (attrs : List (String × String)) : Element :=
  .mk tag [] (some rel) attrs "" "" .nil

/-- The first plain-string value under a key of the first item's properties. -/
def firstStrAt (pr : ParseResult) (k : String) : Option String :=
  match alistGet (pr.items.headD (Record.mk [] [] [] none none none)).properties k with
  | .str s :: _ => some s
  | _ => none

/-- An h-entry whose nested h-card child establishes a full date of its own
(2030-05-05) between the enclosing record's dt-start (full date 2024-01-01)
and its time-only dt-end. -/
def c1dom1 : Element :=
  elC "html" [] [elC "div" ["h-entry"]
    [ elT "span" ["dt-start"] "2024-01-01 10:00"
    , elC "div" ["h-card"] [elT "span" ["dt-x"] "2030-05-05 09:00"]
    , elT "span" ["dt-end"] "12:00" ]]

/-- The same document except that the nested h-card establishes no date of its
own (its dt-x value is time-only). -/
def c1dom2 : Element :=
  elC "html" [] [elC "div" ["h-entry"]
    [ elT "span" ["dt-start"] "2024-01-01 10:00"
    , elC "div" ["h-card"] [elT "span" ["dt-x"] "09:00"]
    , elT "span" ["dt-end"] "12:00" ]]

/-- A root element whose child scan establishes a date. -/
def c1el : Element := elC "div" ["h-card"] [elT "span" ["dt-x"] "2024-01-01 10:00"]

/-- A plain h-card with one explicit name property. -/
def c2doc : Element := elC "html" [] [elC "div" ["h-card"] [elT "span" ["p-name"] "Jo"]]

/-- The single record `c2doc` parses to. -/
def c2rec : Record :=
  (parserParse c2doc none).items.headD (Record.mk [] [] [] none none none)

/-- A root element that is not a property element, with internal property
elements of its own. -/
def c3el : Element := elC "div" ["h-card"] [elT "span" ["p-name"] "Jane"]

/-- An element declaring two plaintext property names. -/
def c5el : Element := elT "span" ["p-name", "p-given-name"] "Jo"

/-- An anchor with a duplicated rel token and no "alternate". -/
def c6el : Element := elRel "a" ["me", "me"] [("href", "contact")]

/-- A link with rel tokens "alternate home" and media-type attributes. -/
def c7el : Element :=
  .mk "link" [] (some ["alternate", "home"])
    [("href", "/feed"), ("type", "application/rss+xml")] "" "" .nil

/-- A one-item parse result for exercising `to_dict`. -/
def c8res : ParseResult :=
  { items := [Record.mk ["h-card"] [("name", [.str "Jo"])] [] none none none]
    rels := []
    alternates := none }

/-! ## The claims -/

/-- Claim C1, counterexample: the carried-date state is not scoped to one
record's direct-child scan.  In `c1dom1` the enclosing h-entry's time-only
dt-end combines with the date `2030-05-05` established *inside* the nested
h-card (because `handle_microformat` leaves `self._default_date` at the nested
scan's final value), whereas with a nested record that establishes no dates
(`c1dom2`, the only difference) the same dt-end yields plain "12:00".  Under
the claim both parses would give the enclosing record the same carried-date
state after the nested record returns, hence the same dt-end value. -/
theorem c1_counterexample :
    firstStrAt (parserParse c1dom1 none) "end" = some "2030-05-05 12:00" ∧
    firstStrAt (parserParse c1dom2 none) "end" = some "12:00" ∧
    ("2030-05-05 12:00" : String) ≠ "12:00" :=
  ⟨rfl, rfl, by decide⟩

/-- Claim C1, amended: the carried date never leaks *into* a nested record —
an element with root classnames is processed with a freshly reset (unset)
carried date, so its outcome is independent of the incoming date — but the
enclosing scan does not recover its own date: after such an element, the
carried date equals the final carried date of that element's own child scan
(unset when the nested record established no dates), not the state from
before. -/
theorem c1_datetime_scope (base : Option String) (el : Element) (d0 d0' : Option String)
    (h : mf2Root el.classes ≠ []) :
    (parse_props base el d0).2.2 = (scanChildren base el.children [] [] none).2.2 ∧
    (parse_props base el d0).2.2 = (parse_props base el d0').2.2 := by
  have h1 := parse_props_out_date base el d0 (isEmpty_false_of_ne_nil _ h)
  have h2 := parse_props_out_date base el d0' (isEmpty_false_of_ne_nil _ h)
  exact ⟨h1, h1.trans h2.symm⟩

/-- Claim C1, witness for the amended theorem at a concrete root element. -/
theorem c1_datetime_scope_witness :
    mf2Root c1el.classes ≠ [] ∧
    ((parse_props none c1el none).2.2 = (scanChildren none c1el.children [] [] none).2.2 ∧
     (parse_props none c1el none).2.2 = (parse_props none c1el (some "1999-01-01")).2.2) :=
  ⟨by decide, c1_datetime_scope none c1el none (some "1999-01-01") (by decide)⟩

/-- Claim C2: every record a parse produces is deeply well-formed — every key
present in any properties map (of an item, a nested value record, or a child
record) holds a non-empty value list — and each implied property is assigned
only when its key is entirely absent after the full child scan: a present key
keeps exactly the scanned values, and the photo/url keys exist afterwards only
when they were present or an implied value exists. -/
theorem c2_implied_only_when_absent (doc : Element) (base : Option String) :
    (∀ r ∈ (parserParse doc base).items, RecordDeepOK r) ∧
    (∀ rcn el sv scanned,
      (alistHas scanned.1 "name" = true →
        alistGet (buildMf rcn el sv base scanned).properties "name" =
          alistGet scanned.1 "name") ∧
      (alistHas scanned.1 "photo" = true →
        alistGet (buildMf rcn el sv base scanned).properties "photo" =
          alistGet scanned.1 "photo") ∧
      (alistHas scanned.1 "url" = true →
        alistGet (buildMf rcn el sv base scanned).properties "url" =
          alistGet scanned.1 "url") ∧
      alistHas (buildMf rcn el sv base scanned).properties "photo" =
        (alistHas scanned.1 "photo" || (impliedPhoto el base).isSome) ∧
      alistHas (buildMf rcn el sv base scanned).properties "url" =
        (alistHas scanned.1 "url" || (impliedUrl el base).isSome)) := by
  constructor
  · intro r hr
    exact parse_el_items_ok base doc r hr
  · intro rcn el sv scanned
    refine ⟨?_, ?_, ?_, buildMf_has_photo rcn el sv base scanned,
      buildMf_has_url rcn el sv base scanned⟩
    · intro hhas
      rw [buildMf_get_name, hhas]
      rfl
    · intro hhas
      rw [buildMf_get_photo, hhas]
      rfl
    · intro hhas
      rw [buildMf_get_url, hhas]
      rfl

/-- Claim C3: an element with root classnames contributes to the enclosing
scan only (a) whole nested records — one per declared property name on the
element itself, each carrying a simple value — and (b) at most one bare child
record when it declares no property names; its internal elements never reach
the enclosing properties map, because the scan does not recurse past it. -/
theorem c3_record_boundary (base : Option String) (el : Element) (d : Option String)
    (h : mf2Root el.classes ≠ []) :
    (∀ p ∈ (parse_props base el d).1,
        (p.1 ∈ mf2Text el.classes ∨ p.1 ∈ mf2Url el.classes ∨
         p.1 ∈ mf2Datetime el.classes ∨ p.1 ∈ mf2Embedded el.classes) ∧
        ∀ v ∈ p.2, ∃ sv, v = PropertyValue.record
          (buildMf (mf2Root el.classes) el (some sv) base
            (scanChildren base el.children [] [] none))) ∧
    (parse_props base el d).2.1 =
      (if hasPropClasses el.classes then []
       else [buildMf (mf2Root el.classes) el none base
          (scanChildren base el.children [] [] none)]) :=
  parse_props_root_shape base el d (isEmpty_false_of_ne_nil _ h)

/-- Claim C3, witness: a bare nested h-card surfaces as exactly one child
record and nothing else. -/
theorem c3_record_boundary_witness :
    mf2Root c3el.classes ≠ [] ∧
    (parse_props none c3el none).2.1 =
      (if hasPropClasses c3el.classes then []
       else [buildMf (mf2Root c3el.classes) c3el none none
          (scanChildren none c3el.children [] [] none)]) :=
  ⟨by decide, (c3_record_boundary none c3el none (by decide)).2⟩

/-- Claim C4: the items of a parse are exactly one record per maximal
root-classname element, in the order of the depth-first traversal that does
not descend past a root — so the two sequences have the same length and
order. -/
theorem c4_items_are_maximal_roots (doc : Element) (base : Option String) :
    (parserParse doc base).items = (specMaximalRoots doc).map (topRecord base) ∧
    (parserParse doc base).items.length = (specMaximalRoots doc).length := by
  have h : (parserParse doc base).items = parse_el base doc := rfl
  rw [h, parse_el_spec]
  exact ⟨rfl, by simp⟩

/-- Claim C5: an element declaring several property names in one category
yields, under every one of those names, copies of the one identical computed
category value (one copy per classname occurrence), computed once from the
element. -/
theorem c5_category_value_shared (base : Option String) (el : Element) (d : Option String)
    (c : Cat) (k1 k2 : String)
    (h1 : k1 ∈ catNames c el.classes) (h2 : k2 ∈ catNames c el.classes)
    (h1o : ∀ c2 : Cat, c2 ≠ c → k1 ∉ catNames c2 el.classes)
    (h2o : ∀ c2 : Cat, c2 ≠ c → k2 ∉ catNames c2 el.classes) :
    ∃ v, v = catValue c base el (scanChildren base el.children [] [] none)
            (dtPhaseDate base el (scanChildren base el.children [] [] none) d) ∧
      (∃ n1 suffix1, n1 ≠ 0 ∧
        alistGet (parse_props base el d).1 k1 = List.replicate n1 v ++ suffix1) ∧
      (∃ n2 suffix2, n2 ≠ 0 ∧
        alistGet (parse_props base el d).1 k2 = List.replicate n2 v ++ suffix2) := by
  obtain ⟨n1, s1, hn1, hg1⟩ := parse_props_head base el d c k1 h1 h1o
  obtain ⟨n2, s2, hn2, hg2⟩ := parse_props_head base el d c k2 h2 h2o
  exact ⟨_, rfl, ⟨n1, s1, hn1, hg1⟩, ⟨n2, s2, hn2, hg2⟩⟩

/-- Claim C5, witness: "p-name p-given-name" puts the same computed plaintext
value under both names. -/
theorem c5_category_value_shared_witness :
    ("name" ∈ catNames Cat.p c5el.classes) ∧
    (∃ v, v = catValue Cat.p none c5el (scanChildren none c5el.children [] [] none)
            (dtPhaseDate none c5el (scanChildren none c5el.children [] [] none) none) ∧
      (∃ n1 suffix1, n1 ≠ 0 ∧
        alistGet (parse_props none c5el none).1 "name" = List.replicate n1 v ++ suffix1) ∧
      (∃ n2 suffix2, n2 ≠ 0 ∧
        alistGet (parse_props none c5el none).1 "given-name" =
          List.replicate n2 v ++ suffix2)) :=
  ⟨by decide, c5_category_value_shared none c5el none Cat.p "name" "given-name"
    (by decide) (by decide) (by decide) (by decide)⟩

/-- Claim C6: an element whose rel tokens contain "alternate" contributes one
alternate entry and leaves the rel map untouched; one whose tokens do not
contain "alternate" leaves the alternates untouched and appends its resolved
URL under every token, once per occurrence. -/
theorem c6_rel_routing (base : Option String) (el : Element) (acc : RelsAcc)
    (relAttrs : List String) (h : el.relAttr = some relAttrs) :
    (relAttrs.contains "alternate" = true →
      (parse_rels base el acc).rels = acc.rels ∧
      (parse_rels base el acc).alternates =
        some (acc.alternates.getD [] ++ [mkAlternate base el relAttrs])) ∧
    (relAttrs.contains "alternate" = false →
      (parse_rels base el acc).alternates = acc.alternates ∧
      ∀ t, alistGet (parse_rels base el acc).rels t =
        alistGet acc.rels t ++ List.replicate (relAttrs.count t)
          (urljoin base ((getAttr el "href").getD ""))) := by
  unfold parse_rels
  rw [h]
  constructor
  · intro hc
    simp only [hc, Bool.not_true, Bool.false_eq_true, if_neg, not_false_iff]
    exact ⟨trivial, trivial⟩
  · intro hc
    simp only [hc, Bool.not_false, if_pos]
    exact ⟨trivial, fun t => appendAll_get relAttrs _ acc.rels t⟩

/-- Claim C6, witness: a duplicated "me" token appends the URL twice under
"me" and adds no alternate. -/
theorem c6_rel_routing_witness :
    c6el.relAttr = some ["me", "me"] ∧
    (parse_rels none c6el ⟨[], none⟩).alternates = none ∧
    alistGet (parse_rels none c6el ⟨[], none⟩).rels "me" =
      List.replicate 2 (urljoin none ((getAttr c6el "href").getD "")) := by
  have h := (c6_rel_routing none c6el ⟨[], none⟩ ["me", "me"] rfl).2 (by decide)
  exact ⟨rfl, h.1, h.2 "me"⟩

/-- Claim C7: the alternate entry's url is the resolved href, its rel field is
the space-joined remaining tokens and is omitted exactly when none remain (for
token lists without empty tokens, as a class-list DOM provides), and media /
hreflang / type are copied verbatim exactly when present. -/
theorem c7_alternate_fields (base : Option String) (el : Element)
    (relAttrs : List String) (_hmem : "alternate" ∈ relAttrs) (hne : "" ∉ relAttrs) :
    (mkAlternate base el relAttrs).url = urljoin base ((getAttr el "href").getD "") ∧
    (mkAlternate base el relAttrs).rel =
      (if relAttrs.filter (fun r => r != "alternate") = [] then none
       else some (joinSpace (relAttrs.filter (fun r => r != "alternate")))) ∧
    (mkAlternate base el relAttrs).media = getAttr el "media" ∧
    (mkAlternate base el relAttrs).hreflang = getAttr el "hreflang" ∧
    (mkAlternate base el relAttrs).type = getAttr el "type" := by
  refine ⟨rfl, ?_, rfl, rfl, rfl⟩
  unfold mkAlternate
  by_cases hfil : relAttrs.filter (fun r => r != "alternate") = []
  · rw [hfil]
    simp [joinSpace]
  · rw [if_neg hfil]
    have hjoin : joinSpace (relAttrs.filter (fun r => r != "alternate")) ≠ "" := by
      apply joinSpace_ne_empty _ hfil
      intro s hs
      intro heq
      exact hne (heq ▸ (List.mem_filter.mp hs).1)
    simp [hjoin]

/-- Claim C7, witness: rel="alternate home" keeps rel = "home" and the type
attribute verbatim. -/
theorem c7_alternate_fields_witness :
    ("alternate" ∈ ["alternate", "home"]) ∧
    (mkAlternate (some "http://example.com/") c7el ["alternate", "home"]).rel =
      (if (["alternate", "home"].filter (fun r => r != "alternate")) = [] then none
       else some (joinSpace (["alternate", "home"].filter (fun r => r != "alternate")))) ∧
    (mkAlternate (some "http://example.com/") c7el ["alternate", "home"]).type =
      getAttr c7el "type" :=
  ⟨by decide,
    (c7_alternate_fields (some "http://example.com/") c7el ["alternate", "home"]
      (by decide) (by decide)).2.1,
    (c7_alternate_fields (some "http://example.com/") c7el ["alternate", "home"]
      (by decide) (by decide)).2.2.2.2⟩

/-- Claim C8: without a filter `to_dict` returns the full result object; with a
filter it returns the bare ordered sublist of exactly the top-level records
whose type contains the token (empty when none match). -/
theorem c8_filter_shape (parsed : ParseResult) :
    to_dict parsed none = ToDictResult.full parsed ∧
    ∀ t, to_dict parsed (some t) =
        ToDictResult.filtered (parsed.items.filter (fun r => r.type.contains t)) ∧
      (parsed.items.filter (fun r => r.type.contains t)).Sublist parsed.items ∧
      (∀ r ∈ parsed.items.filter (fun r => r.type.contains t), r.type.contains t = true) ∧
      (∀ r ∈ parsed.items, r.type.contains t = true →
        r ∈ parsed.items.filter (fun r => r.type.contains t)) ∧
      ((∀ r ∈ parsed.items, r.type.contains t = false) →
        parsed.items.filter (fun r => r.type.contains t) = []) := by
  refine ⟨rfl, fun t => ⟨rfl, List.filter_sublist _, ?_, ?_, ?_⟩⟩
  · intro r hr
    exact (List.mem_filter.mp hr).2
  · intro r hr hc
    exact List.mem_filter.mpr ⟨hr, hc⟩
  · intro hall
    apply List.filter_eq_nil_iff.mpr
    intro r hr hct
    rw [hall r hr] at hct
    exact Bool.noConfusion hct

/-- Claim C9: for every well-formed DOM and possibly-absent base URL, the
parse is total: it always yields a ParseResult (items and rels always
present), never a failure. -/
theorem c9_parse_total (doc : Element) (url : Option String) :
    ∃ r : ParseResult, parserInit (some doc) url = some r ∧
      r.items = (parserParse doc (effectiveUrl doc url)).items ∧
      r.rels = (parserParse doc (effectiveUrl doc url)).rels :=
  ⟨parserParse doc (effectiveUrl doc url), rfl, rfl, rfl⟩

/-- Claim C10: with neither a document nor a URL, nothing is parsed and the
result is exactly the empty ParseResult with no alternates key. -/
theorem c10_no_doc_no_url :
    parserInit none none = some { items := [], rels := [], alternates := none } := rfl

end Mf2
